import Mathlib

/-!
Verification of the array-backed max-priority-queue
(`src/priority_queue_project.py`) against its specification.

The Python module stores the heap in a list subclass `HeapCapable` that
carries an auxiliary integer field `heap_size`.  Elements are integers,
except that `heap_insert` temporarily appends `-math.inf`; we therefore model
element values as `WithBot ℤ`, with `⊥` playing the role of `-math.inf`.
`heap_size` is modelled as an unbounded integer (Python `int`), since
`extract_max` can drive it to `-1`.

Index arguments of `max_heapify`, `build_max_heap` and `increase_key` are
modelled as naturals: every call site in the module passes a non-negative
index.  List reads are modelled with `List.getD _ _ ⊥`; the sole place where
Python's negative-index / IndexError semantics is observable (`extract_max`,
which reads `A[heap_size-1]` and may see `heap_size = 0`) goes through
`pyGet`/`pySet`, which implement Python list indexing exactly, with `none`
standing for an uncaught `IndexError`.
-/

namespace PQ

/-- Element values: integers together with `⊥` for Python's `-math.inf`. -/
abbrev EV := WithBot ℤ

/-- Embed an integer literal as an element value. -/
def iv (n : ℤ) : EV := (n : WithBot ℤ)

/-- The `HeapCapable` list subclass: backing list plus the `heap_size` field. -/
structure HeapCapable where
  arr : List EV
  heap_size : ℤ
deriving DecidableEq

/-- The `HeapCapable.__init__` constructor: `heap_size` starts as `len(self)`. -/
def mkHeap (lst : List EV) : HeapCapable := ⟨lst, (lst.length : ℤ)⟩

/-- Python `A[i]` for a (possibly negative) index, `none` = `IndexError`. -/
def pyGet (l : List EV) (i : ℤ) : Option EV :=
  let j : ℤ := if 0 ≤ i then i else (l.length : ℤ) + i
  if 0 ≤ j ∧ j < (l.length : ℤ) then some (l.getD j.toNat ⊥) else none

/-- Python `A[i] = v` for a (possibly negative) index, `none` = `IndexError`. -/
def pySet (l : List EV) (i : ℤ) (v : EV) : Option (List EV) :=
  let j : ℤ := if 0 ≤ i then i else (l.length : ℤ) + i
  if 0 ≤ j ∧ j < (l.length : ℤ) then some (l.set j.toNat v) else none

/-- Source `left(i) = 2*i+1`. -/
def left (i : Nat) : Nat := 2*i+1

/-- Source `right(i) = 2*(i+1)`. -/
def right (i : Nat) : Nat := 2*(i+1)

/-- Source `parent(i) = floor((i-1)/2)`.  Every use in the module has `i ≥ 1`
(guarded by `index > 0`), where the natural-subtraction formula agrees with
Python's value. -/
def parent (i : Nat) : Nat := (i-1)/2

/-- The index `largest` computed by the two `if` statements of `max_heapify`:
start from `i`, move to `l` if `l < A.heap_size and A[l] > A[i]`, then to `r`
if `r < A.heap_size and A[r] > A[largest]`. -/
def heapifyLargest (A : HeapCapable) (i : Nat) : Nat :=
  let l := left i
  let r := right i
  let largest := if (l : ℤ) < A.heap_size ∧ A.arr.getD l ⊥ > A.arr.getD i ⊥ then l else i
  if (r : ℤ) < A.heap_size ∧ A.arr.getD r ⊥ > A.arr.getD largest ⊥ then r else largest

/-- The parallel assignment `A[i],A[largest] = A[largest],A[i]`. -/
def swapAt (A : HeapCapable) (i k : Nat) : HeapCapable :=
  ⟨(A.arr.set i (A.arr.getD k ⊥)).set k (A.arr.getD i ⊥), A.heap_size⟩

/-- Body of `max_heapify`, with explicit recursion fuel so that the function
is structurally recursive (and hence evaluates inside the kernel).  Each
recursive call strictly increases the index while staying below `heap_size`,
so `A.heap_size.toNat` units of fuel always suffice (see `max_heapify`). -/
def max_heapify_fuel : Nat → HeapCapable → Nat → HeapCapable
  | 0, A, _ => A
  | fuel+1, A, i =>
    let largest := heapifyLargest A i
    if largest = i then A
    else max_heapify_fuel fuel (swapAt A i largest) largest

/-- Source `max_heapify(A, i)`: float the value at `i` down until the subtree
rooted at `i` is a max-heap again. -/
def max_heapify (A : HeapCapable) (i : Nat) : HeapCapable :=
  max_heapify_fuel A.heap_size.toNat A i

/-- The descending loop `for i in range(A.heap_size // 2 - 1, -1, -1)` of
`build_max_heap`: `build_loop A (n+1)` runs the body at index `n`, then
continues with `n-1, …, 0`. -/
def build_loop (A : HeapCapable) : Nat → HeapCapable
  | 0 => A
  | n+1 => build_loop (max_heapify A n) n

/-- Source `build_max_heap(A)`: call `max_heapify` on the indices
`A.heap_size // 2 - 1, …, 1, 0` in decreasing order. -/
def build_max_heap (A : HeapCapable) : HeapCapable :=
  build_loop A (A.heap_size.toNat / 2)

/-- The `MaxPriorityQueue.__init__` constructor: wrap the list in
`HeapCapable` and establish the heap property with `build_max_heap`. -/
def MaxPriorityQueue (array : List EV) : HeapCapable :=
  build_max_heap (mkHeap array)

/-- Source `maximum(A) = A[0]`.  Note the code performs no `heap_size` check:
the only failure mode is an `IndexError` on a physically empty list. -/
def maximum (A : HeapCapable) : Option EV := pyGet A.arr 0

/-- Source `extract_max(A)`.  When `A.heap_size < 1` the code only *logs*
`heap underflow` (the `error` call does not raise) and falls through, so the
model continues unconditionally exactly as the code does: save `A[0]`, write
`A[A.heap_size-1]` into slot `0`, decrement `heap_size`, sift down from the
root and return the saved value.  `none` models an uncaught `IndexError`. -/
def extract_max (A : HeapCapable) : Option (EV × HeapCapable) := do
  let mx ← pyGet A.arr 0
  let last ← pyGet A.arr (A.heap_size - 1)
  let arr' ← pySet A.arr 0 last
  some (mx, max_heapify ⟨arr', A.heap_size - 1⟩ 0)

/-- The `while` loop of `increase_key`, with fuel (the index strictly
decreases, so `index` units of fuel suffice; when fuel reaches `0` the index
is `0` and the loop is over anyway).  The loop guard transcribes the source
line faithfully, bug included: `A[ parent( index ) < A[ index ] ]` indexes
`A` by the *boolean* `parent(index) < A[index]` (Python reads `A[1]` when the
comparison is true and `A[0]` otherwise) and the loop continues while that
element is truthy (nonzero). -/
def sift_loop : Nat → List EV → Nat → List EV
  | 0, arr, _ => arr
  | fuel+1, arr, index =>
    if index > 0 ∧
        arr.getD (if ((parent index : ℤ) : EV) < arr.getD index ⊥ then 1 else 0) ⊥ ≠ iv 0 then
      sift_loop fuel
        ((arr.set index (arr.getD (parent index) ⊥)).set (parent index) (arr.getD index ⊥))
        (parent index)
    else arr

/-- Source `increase_key(A, index, newValue)`.  When `newValue < A[index]`
the code logs `New key is smaller than current key!` — again without raising —
and returns immediately, leaving the heap untouched.  Otherwise it writes
`newValue` at `index` and runs the (buggy) sift-up loop. -/
def increase_key (A : HeapCapable) (index : Nat) (newValue : EV) : HeapCapable :=
  if newValue < A.arr.getD index ⊥ then A
  else ⟨sift_loop index (A.arr.set index newValue) index, A.heap_size⟩

/-- Source `heap_insert(A, newValue)`: bump `heap_size`, append `-math.inf`
(modelled by `⊥`), then `increase_key` on the last live slot. -/
def heap_insert (A : HeapCapable) (newValue : EV) : HeapCapable :=
  let A' : HeapCapable := ⟨A.arr ++ [⊥], A.heap_size + 1⟩
  increase_key A' (A'.heap_size - 1).toNat newValue

/-- Repeatedly `extract_max`, collecting the returned keys (stopping early on
an exception, which never happens on a well-formed non-empty heap). -/
def extractList : Nat → HeapCapable → List EV
  | 0, _ => []
  | n+1, A =>
    match extract_max A with
    | some (v, A') => v :: extractList n A'
    | none => []

/-- Drain the whole live range of the heap. -/
def extractAllList (A : HeapCapable) : List EV :=
  extractList A.heap_size.toNat A

/-- Model well-formedness: `heap_size` lies between `0` and the physical
length, as maintained by every constructor-reachable state the claims
quantify over. -/
def WF (A : HeapCapable) : Prop :=
  0 ≤ A.heap_size ∧ A.heap_size ≤ (A.arr.length : ℤ)

instance (A : HeapCapable) : Decidable (WF A) := by unfold WF; infer_instance

/-- The relation `Desc i j`: node `j` lies in the subtree rooted at `i`
(equivalently, `i` is an ancestor of `j` or `j` itself) of the implicit
binary tree with children `left`/`right`. -/
inductive Desc : Nat → Nat → Prop
  | refl (i : Nat) : Desc i i
  | viaLeft {i k : Nat} : Desc (left i) k → Desc i k
  | viaRight {i k : Nat} : Desc (right i) k → Desc i k

theorem Desc.le {i j : Nat} (h : Desc i j) : i ≤ j := by
  induction h with
  | refl => exact Nat.le_refl _
  | viaLeft h ih => unfold left at ih; omega
  | viaRight h ih => unfold right at ih; omega

theorem Desc.trans {i j k : Nat} (hij : Desc i j) (hjk : Desc j k) : Desc i k := by
  induction hij with
  | refl => exact hjk
  | viaLeft _ ih => exact .viaLeft (ih hjk)
  | viaRight _ ih => exact .viaRight (ih hjk)

theorem Desc.child_left (i : Nat) : Desc i (left i) := .viaLeft (.refl _)

theorem Desc.child_right (i : Nat) : Desc i (right i) := .viaRight (.refl _)

theorem parent_left (i : Nat) : parent (left i) = i := by
  unfold parent left; omega

theorem parent_right (i : Nat) : parent (right i) = i := by
  unfold parent right; omega

/-- Every positive index is the left or the right child of its parent. -/
theorem eq_child_of_parent {j : Nat} (hj : 0 < j) :
    j = left (parent j) ∨ j = right (parent j) := by
  unfold parent left right; omega

/-- Characterisation of `Desc` by walking up from `j` along parents. -/
theorem Desc_up {i j : Nat} : Desc i j ↔ i = j ∨ (0 < j ∧ Desc i (parent j)) := by
  constructor
  · intro h
    induction h with
    | refl => exact Or.inl rfl
    | @viaLeft i' k _ ih =>
      rcases ih with h' | ⟨hk, hd⟩
      · refine Or.inr ⟨by unfold left at h'; omega, ?_⟩
        rw [← h', parent_left]; exact .refl _
      · exact Or.inr ⟨hk, .viaLeft hd⟩
    | @viaRight i' k _ ih =>
      rcases ih with h' | ⟨hk, hd⟩
      · refine Or.inr ⟨by unfold right at h'; omega, ?_⟩
        rw [← h', parent_right]; exact .refl _
      · exact Or.inr ⟨hk, .viaRight hd⟩
  · rintro (rfl | ⟨hj, hd⟩)
    · exact .refl _
    · rcases eq_child_of_parent hj with h' | h'
      · have := hd.trans (Desc.child_left (parent j)); rwa [← h'] at this
      · have := hd.trans (Desc.child_right (parent j)); rwa [← h'] at this

theorem parent_lt {j : Nat} (hj : 0 < j) : parent j < j := by
  unfold parent; omega

/-- Every node is a descendant of the root. -/
theorem Desc.zero (j : Nat) : Desc 0 j := by
  induction j using Nat.strong_induction_on with
  | _ j ih =>
    rcases Nat.eq_zero_or_pos j with rfl | hj
    · exact .refl 0
    · exact Desc_up.mpr (Or.inr ⟨hj, ih _ (parent_lt hj)⟩)

/-- Two ancestors of a common node are comparable. -/
theorem Desc.comparable {i j k : Nat} (hik : Desc i k) (hjk : Desc j k) :
    Desc i j ∨ Desc j i := by
  induction k using Nat.strong_induction_on with
  | _ k ih =>
    rcases Desc_up.mp hik with rfl | ⟨hk, hi'⟩
    · exact Or.inr hjk
    · rcases Desc_up.mp hjk with rfl | ⟨-, hj'⟩
      · exact Or.inl hik
      · exact ih _ (parent_lt hk) hi' hj'

theorem not_desc_left_right (i : Nat) : ¬ Desc (left i) (right i) := by
  intro h
  rcases Desc_up.mp h with h' | ⟨-, hd⟩
  · unfold left right at h'; omega
  · rw [parent_right] at hd
    have := hd.le; unfold left at this; omega

theorem not_desc_right_left (i : Nat) : ¬ Desc (right i) (left i) := by
  intro h
  have := h.le; unfold left right at this; omega

/-- The subtrees below the two children of a node are disjoint. -/
theorem Desc.sibling_disjoint {i j : Nat}
    (hl : Desc (left i) j) (hr : Desc (right i) j) : False := by
  rcases hl.comparable hr with h | h
  · exact not_desc_left_right i h
  · exact not_desc_right_left i h

/-- Executable check for `Desc`, by fuelled recursion up the parent chain. -/
def descB : Nat → Nat → Nat → Bool
  | 0, _, _ => false
  | fuel+1, i, j => j == i || (!(j == 0) && descB fuel i (parent j))

theorem descB_iff : ∀ (fuel i j : Nat), j < fuel → (descB fuel i j = true ↔ Desc i j) := by
  intro fuel
  induction fuel with
  | zero => omega
  | succ fuel ih =>
    intro i j hj
    simp only [descB, Bool.or_eq_true, Bool.and_eq_true, beq_iff_eq, Bool.not_eq_true',
      beq_eq_false_iff_ne, ne_eq]
    constructor
    · rintro (rfl | ⟨hj0, hd⟩)
      · exact .refl _
      · have h0 : 0 < j := Nat.pos_of_ne_zero hj0
        exact Desc_up.mpr (Or.inr ⟨h0, (ih i (parent j) (by have := parent_lt h0; omega)).mp hd⟩)
    · intro h
      rcases Desc_up.mp h with rfl | ⟨h0, hd⟩
      · exact Or.inl rfl
      · exact Or.inr ⟨by omega, (ih i (parent j) (by have := parent_lt h0; omega)).mpr hd⟩

instance Desc.decidable (i j : Nat) : Decidable (Desc i j) :=
  decidable_of_iff (descB (j+1) i j = true) (descB_iff (j+1) i j (Nat.lt_succ_self j))

/-- Local max-heap condition at node `j`: `A[j]` dominates its live children. -/
def nodeOK (A : HeapCapable) (j : Nat) : Prop :=
  ((left j : ℤ) < A.heap_size → A.arr.getD j ⊥ ≥ A.arr.getD (left j) ⊥) ∧
  ((right j : ℤ) < A.heap_size → A.arr.getD j ⊥ ≥ A.arr.getD (right j) ⊥)

instance (A : HeapCapable) (j : Nat) : Decidable (nodeOK A j) := by
  unfold nodeOK; infer_instance

/-- The subtree rooted at `k` satisfies the max-heap property (only live
nodes matter: conditions at `j ≥ heap_size` are vacuous because their
children lie even further out). -/
def SubHeap (A : HeapCapable) (k : Nat) : Prop :=
  ∀ j < A.heap_size.toNat, Desc k j → nodeOK A j

instance (A : HeapCapable) (k : Nat) : Decidable (SubHeap A k) := by
  unfold SubHeap; infer_instance

/-- The max-heap property of the spec: every live node dominates its live
children. -/
def MaxHeapProp (A : HeapCapable) : Prop :=
  ∀ j < A.heap_size.toNat, nodeOK A j

instance (A : HeapCapable) : Decidable (MaxHeapProp A) := by
  unfold MaxHeapProp; infer_instance

theorem MaxHeapProp_iff_SubHeap_zero (A : HeapCapable) :
    MaxHeapProp A ↔ SubHeap A 0 := by
  constructor
  · intro h j hj _; exact h j hj
  · intro h j hj; exact h j hj (Desc.zero j)

theorem getD_set_self {l : List EV} {i : Nat} {a d : EV} (h : i < l.length) :
    (l.set i a).getD i d = a := by
  rw [List.getD_eq_getElem?_getD, List.getElem?_set_self h, Option.getD_some]

theorem getD_set_ne {l : List EV} {i j : Nat} {a d : EV} (h : i ≠ j) :
    (l.set i a).getD j d = l.getD j d := by
  rw [List.getD_eq_getElem?_getD, List.getElem?_set_ne h, ← List.getD_eq_getElem?_getD]

@[simp] theorem swapAt_heap_size (A : HeapCapable) (i k : Nat) :
    (swapAt A i k).heap_size = A.heap_size := rfl

@[simp] theorem swapAt_length (A : HeapCapable) (i k : Nat) :
    (swapAt A i k).arr.length = A.arr.length := by
  simp [swapAt]

theorem swapAt_getD_fst {A : HeapCapable} {i k : Nat}
    (hi : i < A.arr.length) (hik : i ≠ k) :
    (swapAt A i k).arr.getD i ⊥ = A.arr.getD k ⊥ := by
  unfold swapAt
  rw [getD_set_ne (Ne.symm hik), getD_set_self hi]

theorem swapAt_getD_snd {A : HeapCapable} {i k : Nat}
    (hk : k < A.arr.length) :
    (swapAt A i k).arr.getD k ⊥ = A.arr.getD i ⊥ := by
  unfold swapAt
  rw [getD_set_self (by simpa using hk)]

theorem swapAt_getD_other {A : HeapCapable} {i k j : Nat}
    (hji : j ≠ i) (hjk : j ≠ k) :
    (swapAt A i k).arr.getD j ⊥ = A.arr.getD j ⊥ := by
  unfold swapAt
  rw [getD_set_ne (Ne.symm hjk), getD_set_ne (Ne.symm hji)]

theorem lt_left (i : Nat) : i < left i := by unfold left; omega

theorem lt_right (i : Nat) : i < right i := by unfold right; omega

/-- Characterisation of `heapifyLargest`: either it stays at `i`, or it moves
to a live child carrying a strictly larger value. -/
theorem heapifyLargest_cases (A : HeapCapable) (i : Nat) :
    heapifyLargest A i = i ∨
      ((heapifyLargest A i = left i ∨ heapifyLargest A i = right i) ∧
        i < heapifyLargest A i ∧ (heapifyLargest A i : ℤ) < A.heap_size ∧
        A.arr.getD i ⊥ < A.arr.getD (heapifyLargest A i) ⊥) := by
  simp only [heapifyLargest]
  by_cases h1 : (left i : ℤ) < A.heap_size ∧ A.arr.getD (left i) ⊥ > A.arr.getD i ⊥
  · rw [if_pos h1]
    by_cases h2 : (right i : ℤ) < A.heap_size ∧ A.arr.getD (right i) ⊥ > A.arr.getD (left i) ⊥
    · rw [if_pos h2]
      exact Or.inr ⟨Or.inr rfl, lt_right i, h2.1, lt_trans h1.2 h2.2⟩
    · rw [if_neg h2]
      exact Or.inr ⟨Or.inl rfl, lt_left i, h1.1, h1.2⟩
  · rw [if_neg h1]
    by_cases h2 : (right i : ℤ) < A.heap_size ∧ A.arr.getD (right i) ⊥ > A.arr.getD i ⊥
    · rw [if_pos h2]
      exact Or.inr ⟨Or.inr rfl, lt_right i, h2.1, h2.2⟩
    · rw [if_neg h2]
      exact Or.inl rfl

theorem heapifyLargest_ge_self (A : HeapCapable) (i : Nat) :
    A.arr.getD i ⊥ ≤ A.arr.getD (heapifyLargest A i) ⊥ := by
  rcases heapifyLargest_cases A i with h | ⟨-, -, -, h⟩
  · rw [h]
  · exact le_of_lt h

theorem heapifyLargest_ge_left (A : HeapCapable) (i : Nat)
    (hl : (left i : ℤ) < A.heap_size) :
    A.arr.getD (left i) ⊥ ≤ A.arr.getD (heapifyLargest A i) ⊥ := by
  simp only [heapifyLargest]
  by_cases h1 : (left i : ℤ) < A.heap_size ∧ A.arr.getD (left i) ⊥ > A.arr.getD i ⊥
  · rw [if_pos h1]
    by_cases h2 : (right i : ℤ) < A.heap_size ∧ A.arr.getD (right i) ⊥ > A.arr.getD (left i) ⊥
    · rw [if_pos h2]; exact le_of_lt h2.2
    · rw [if_neg h2]
  · rw [if_neg h1]
    have hle : A.arr.getD (left i) ⊥ ≤ A.arr.getD i ⊥ := by
      by_contra hc; exact h1 ⟨hl, lt_of_not_ge hc⟩
    by_cases h2 : (right i : ℤ) < A.heap_size ∧ A.arr.getD (right i) ⊥ > A.arr.getD i ⊥
    · rw [if_pos h2]; exact le_trans hle (le_of_lt h2.2)
    · rw [if_neg h2]; exact hle

theorem heapifyLargest_ge_right (A : HeapCapable) (i : Nat)
    (hr : (right i : ℤ) < A.heap_size) :
    A.arr.getD (right i) ⊥ ≤ A.arr.getD (heapifyLargest A i) ⊥ := by
  simp only [heapifyLargest]
  by_cases h1 : (left i : ℤ) < A.heap_size ∧ A.arr.getD (left i) ⊥ > A.arr.getD i ⊥
  · rw [if_pos h1]
    by_cases h2 : (right i : ℤ) < A.heap_size ∧ A.arr.getD (right i) ⊥ > A.arr.getD (left i) ⊥
    · rw [if_pos h2]
    · rw [if_neg h2]
      by_contra hc; exact h2 ⟨hr, lt_of_not_ge hc⟩
  · rw [if_neg h1]
    by_cases h2 : (right i : ℤ) < A.heap_size ∧ A.arr.getD (right i) ⊥ > A.arr.getD i ⊥
    · rw [if_pos h2]
    · rw [if_neg h2]
      by_contra hc; exact h2 ⟨hr, lt_of_not_ge hc⟩

/-- Tie-breaking, part 1: when no live child is strictly greater, `largest`
stays at the current node. -/
theorem heapifyLargest_eq_self (A : HeapCapable) (i : Nat)
    (hl : (left i : ℤ) < A.heap_size → ¬ A.arr.getD i ⊥ < A.arr.getD (left i) ⊥)
    (hr : (right i : ℤ) < A.heap_size → ¬ A.arr.getD i ⊥ < A.arr.getD (right i) ⊥) :
    heapifyLargest A i = i := by
  simp only [heapifyLargest]
  have h1 : ¬ ((left i : ℤ) < A.heap_size ∧ A.arr.getD (left i) ⊥ > A.arr.getD i ⊥) := by
    rintro ⟨hg, hv⟩; exact hl hg hv
  rw [if_neg h1]
  have h2 : ¬ ((right i : ℤ) < A.heap_size ∧ A.arr.getD (right i) ⊥ > A.arr.getD i ⊥) := by
    rintro ⟨hg, hv⟩; exact hr hg hv
  rw [if_neg h2]

/-- Tie-breaking, part 2: a strictly greater left child wins unless the right
child is strictly greater than it. -/
theorem heapifyLargest_eq_left (A : HeapCapable) (i : Nat)
    (hl : (left i : ℤ) < A.heap_size) (hgt : A.arr.getD i ⊥ < A.arr.getD (left i) ⊥)
    (hr : (right i : ℤ) < A.heap_size →
      ¬ A.arr.getD (left i) ⊥ < A.arr.getD (right i) ⊥) :
    heapifyLargest A i = left i := by
  simp only [heapifyLargest]
  have h1 : (left i : ℤ) < A.heap_size ∧ A.arr.getD (left i) ⊥ > A.arr.getD i ⊥ := ⟨hl, hgt⟩
  rw [if_pos h1]
  have h2 : ¬ ((right i : ℤ) < A.heap_size ∧ A.arr.getD (right i) ⊥ > A.arr.getD (left i) ⊥) := by
    rintro ⟨hg, hv⟩; exact hr hg hv
  rw [if_neg h2]

@[simp] theorem mhf_heap_size (fuel : Nat) (A : HeapCapable) (i : Nat) :
    (max_heapify_fuel fuel A i).heap_size = A.heap_size := by
  induction fuel generalizing A i with
  | zero => rfl
  | succ fuel ih =>
    simp only [max_heapify_fuel]
    split
    · rfl
    · rw [ih, swapAt_heap_size]

@[simp] theorem mhf_length (fuel : Nat) (A : HeapCapable) (i : Nat) :
    (max_heapify_fuel fuel A i).arr.length = A.arr.length := by
  induction fuel generalizing A i with
  | zero => rfl
  | succ fuel ih =>
    simp only [max_heapify_fuel]
    split
    · rfl
    · rw [ih, swapAt_length]

/-- Both indices of the swap performed by one `max_heapify` step are live. -/
theorem mhf_swap_indices {A : HeapCapable} {i : Nat}
    (h : heapifyLargest A i ≠ i) :
    i < heapifyLargest A i ∧ (heapifyLargest A i : ℤ) < A.heap_size := by
  rcases heapifyLargest_cases A i with h' | ⟨-, h1, h2, -⟩
  · exact absurd h' h
  · exact ⟨h1, h2⟩

/-- Frame property of `max_heapify` beyond the live range: slots at indices
`≥ heap_size` are never read for writing nor written. -/
theorem mhf_getElem?_high (fuel : Nat) (A : HeapCapable) (i : Nat) (j : Nat)
    (hj : A.heap_size ≤ (j : ℤ)) :
    (max_heapify_fuel fuel A i).arr[j]? = A.arr[j]? := by
  induction fuel generalizing A i with
  | zero => rfl
  | succ fuel ih =>
    simp only [max_heapify_fuel]
    split
    · rfl
    · next h =>
      obtain ⟨h1, h2⟩ := mhf_swap_indices h
      rw [ih _ _ (by rw [swapAt_heap_size]; exact hj)]
      unfold swapAt
      have hij : i ≠ j := by omega
      have hlj : heapifyLargest A i ≠ j := by omega
      rw [List.getElem?_set_ne hlj, List.getElem?_set_ne hij]

theorem mhf_getD_high (fuel : Nat) (A : HeapCapable) (i : Nat) (j : Nat)
    (hj : A.heap_size ≤ (j : ℤ)) :
    (max_heapify_fuel fuel A i).arr.getD j ⊥ = A.arr.getD j ⊥ := by
  rw [List.getD_eq_getElem?_getD, List.getD_eq_getElem?_getD, mhf_getElem?_high fuel A i j hj]

/-- Subtree heaps restrict to subtrees. -/
theorem SubHeap.mono {A : HeapCapable} {k m : Nat}
    (hkm : Desc k m) (h : SubHeap A k) : SubHeap A m :=
  fun j hj hd => h j hj (hkm.trans hd)

/-- The subtree-heap property only depends on `heap_size` and the values
stored in the subtree. -/
theorem SubHeap.congr {A B : HeapCapable} {k : Nat}
    (hs : A.heap_size = B.heap_size)
    (hv : ∀ j, Desc k j → A.arr.getD j ⊥ = B.arr.getD j ⊥)
    (h : SubHeap A k) : SubHeap B k := by
  intro j hj hd
  have hnode := h j (by omega) hd
  refine ⟨?_, ?_⟩
  · intro hguard
    rw [← hv j hd, ← hv (left j) (hd.trans (Desc.child_left j))]
    exact hnode.1 (by omega)
  · intro hguard
    rw [← hv j hd, ← hv (right j) (hd.trans (Desc.child_right j))]
    exact hnode.2 (by omega)

/-- In a subtree satisfying the heap property, the root dominates every live
node of the subtree. -/
theorem SubHeap.dominates {A : HeapCapable} {k : Nat} (h : SubHeap A k) :
    ∀ j, Desc k j → j < A.heap_size.toNat → A.arr.getD j ⊥ ≤ A.arr.getD k ⊥ := by
  intro j
  induction j using Nat.strong_induction_on with
  | _ j ih =>
    intro hd hj
    rcases Desc_up.mp hd with rfl | ⟨hj0, hd'⟩
    · exact le_refl _
    · have hpj : parent j < j := parent_lt hj0
      have hnode := h (parent j) (by omega) hd'
      have hstep : A.arr.getD j ⊥ ≤ A.arr.getD (parent j) ⊥ := by
        rcases eq_child_of_parent hj0 with hc | hc
        · have := hnode.1 (by rw [← hc]; omega)
          rw [← hc] at this; exact this
        · have := hnode.2 (by rw [← hc]; omega)
          rw [← hc] at this; exact this
      exact le_trans hstep (ih (parent j) hpj hd' (by omega))

theorem left_ne_right (i : Nat) : left i ≠ right i := by
  unfold left right; omega

/-- Main lemma on `max_heapify_fuel`: with sufficient fuel, starting from a
live node whose two child subtrees are heaps, sifting down (1) makes the
subtree rooted at `i` a heap, (2) changes no slot outside that subtree, and
(3) puts the value of the `largest` candidate into slot `i`. -/
theorem mhf_main : ∀ (fuel : Nat) (A : HeapCapable) (i : Nat),
    WF A → (i : ℤ) < A.heap_size → A.heap_size.toNat ≤ fuel + i →
    SubHeap A (left i) → SubHeap A (right i) →
    SubHeap (max_heapify_fuel fuel A i) i
    ∧ (∀ j, ¬ Desc i j →
        (max_heapify_fuel fuel A i).arr.getD j ⊥ = A.arr.getD j ⊥)
    ∧ (max_heapify_fuel fuel A i).arr.getD i ⊥ =
        A.arr.getD (heapifyLargest A i) ⊥ := by
  intro fuel
  induction fuel with
  | zero =>
    intro A i hWF hi hfuel _ _
    exact absurd hfuel (by have := hWF.1; omega)
  | succ fuel ih =>
    intro A i hWF hi hfuel hl hr
    simp only [max_heapify_fuel]
    by_cases hL : heapifyLargest A i = i
    · rw [if_pos hL]
      have hnodei : nodeOK A i := by
        constructor
        · intro hg
          have := heapifyLargest_ge_left A i hg
          rwa [hL] at this
        · intro hg
          have := heapifyLargest_ge_right A i hg
          rwa [hL] at this
      refine ⟨?_, fun j _ => rfl, by rw [hL]⟩
      intro j hj hd
      cases hd with
      | refl => exact hnodei
      | viaLeft hd' => exact hl j hj hd'
      | viaRight hd' => exact hr j hj hd'
    · rw [if_neg hL]
      obtain ⟨hlr, hiL, hLhs, hvLt⟩ := (heapifyLargest_cases A i).resolve_left hL
      have hSubL : SubHeap A (heapifyLargest A i) := by
        rcases hlr with h | h
        · rw [h]; exact hl
        · rw [h]; exact hr
      have hDiL : Desc i (heapifyLargest A i) := by
        rcases hlr with h | h
        · rw [h]; exact Desc.child_left i
        · rw [h]; exact Desc.child_right i
      have hLlen : heapifyLargest A i < A.arr.length := by
        have := hWF.2; omega
      have hilen : i < A.arr.length := by omega
      have hiLne : i ≠ heapifyLargest A i := by omega
      -- the swapped state
      have hWF' : WF (swapAt A i (heapifyLargest A i)) := by
        unfold WF; rw [swapAt_heap_size, swapAt_length]; exact hWF
      have hvi' : (swapAt A i (heapifyLargest A i)).arr.getD i ⊥ =
          A.arr.getD (heapifyLargest A i) ⊥ := swapAt_getD_fst hilen hiLne
      have hvL' : (swapAt A i (heapifyLargest A i)).arr.getD (heapifyLargest A i) ⊥ =
          A.arr.getD i ⊥ := swapAt_getD_snd hLlen
      have hother' : ∀ j, j ≠ i → j ≠ heapifyLargest A i →
          (swapAt A i (heapifyLargest A i)).arr.getD j ⊥ = A.arr.getD j ⊥ :=
        fun j h1 h2 => swapAt_getD_other h1 h2
      -- the child subtrees of `largest` are untouched by the swap
      have hSubChild : ∀ m, Desc (heapifyLargest A i) m → heapifyLargest A i ≠ m →
          (swapAt A i (heapifyLargest A i)).arr.getD m ⊥ = A.arr.getD m ⊥ := by
        intro m hdm hne
        have h1 : heapifyLargest A i ≤ m := hdm.le
        exact hother' m (by omega) (by omega)
      have hl' : SubHeap (swapAt A i (heapifyLargest A i)) (left (heapifyLargest A i)) := by
        refine SubHeap.congr (by rw [swapAt_heap_size]) ?_
          (hSubL.mono (Desc.child_left _))
        intro j hd
        have hj1 : left (heapifyLargest A i) ≤ j := hd.le
        have hj2 : heapifyLargest A i < left (heapifyLargest A i) := lt_left _
        exact (hother' j (by omega) (by omega)).symm
      have hr' : SubHeap (swapAt A i (heapifyLargest A i)) (right (heapifyLargest A i)) := by
        refine SubHeap.congr (by rw [swapAt_heap_size]) ?_
          (hSubL.mono (Desc.child_right _))
        intro j hd
        have hj1 : right (heapifyLargest A i) ≤ j := hd.le
        have hj2 : heapifyLargest A i < right (heapifyLargest A i) := lt_right _
        exact (hother' j (by omega) (by omega)).symm
      obtain ⟨Sh, frame, root⟩ := ih (swapAt A i (heapifyLargest A i)) (heapifyLargest A i)
        hWF' (by rw [swapAt_heap_size]; exact hLhs)
        (by rw [swapAt_heap_size]; omega) hl' hr'
      have hndLi : ¬ Desc (heapifyLargest A i) i := fun h => by have := h.le; omega
      have hAi : (max_heapify_fuel fuel (swapAt A i (heapifyLargest A i))
          (heapifyLargest A i)).arr.getD i ⊥ = A.arr.getD (heapifyLargest A i) ⊥ := by
        rw [frame i hndLi, hvi']
      -- the value now at `largest` is bounded by the old value there
      have hAL : (max_heapify_fuel fuel (swapAt A i (heapifyLargest A i))
          (heapifyLargest A i)).arr.getD (heapifyLargest A i) ⊥ ≤
          A.arr.getD (heapifyLargest A i) ⊥ := by
        rw [root]
        rcases heapifyLargest_cases (swapAt A i (heapifyLargest A i))
            (heapifyLargest A i) with h | ⟨hlr2, hgt2, hhs2, -⟩
        · rw [h, hvL']; exact le_of_lt hvLt
        · have hm : heapifyLargest (swapAt A i (heapifyLargest A i))
              (heapifyLargest A i) ≠ heapifyLargest A i := by omega
          rw [hSubChild _ ?hd (Ne.symm hm)]
          case hd =>
            rcases hlr2 with h | h
            · rw [h]; exact Desc.child_left _
            · rw [h]; exact Desc.child_right _
          refine hSubL.dominates _ ?_ ?_
          · rcases hlr2 with h | h
            · rw [h]; exact Desc.child_left _
            · rw [h]; exact Desc.child_right _
          · rw [swapAt_heap_size] at hhs2; omega
      have hs'' : (max_heapify_fuel fuel (swapAt A i (heapifyLargest A i))
          (heapifyLargest A i)).heap_size = A.heap_size := by
        rw [mhf_heap_size, swapAt_heap_size]
      refine ⟨?_, ?_, hAi⟩
      · -- the subtree rooted at `i` is now a heap
        intro j hj hd
        rw [hs''] at hj
        cases hd with
        | refl =>
          constructor
          · intro hg
            rw [hs''] at hg
            rw [hAi]
            rcases hlr with hcase | hcase
            · have := hAL; rw [hcase] at this ⊢
              exact le_trans this (by rw [← hcase])
            · have hfr : (max_heapify_fuel fuel (swapAt A i (heapifyLargest A i))
                  (heapifyLargest A i)).arr.getD (left i) ⊥ = A.arr.getD (left i) ⊥ := by
                rw [frame (left i) (by rw [hcase]; exact not_desc_right_left i), hother' (left i)
                  (Ne.symm (Nat.ne_of_lt (lt_left i))) (by rw [hcase]; exact left_ne_right i)]
              rw [hfr]
              exact heapifyLargest_ge_left A i hg
          · intro hg
            rw [hs''] at hg
            rw [hAi]
            rcases hlr with hcase | hcase
            · have hfr : (max_heapify_fuel fuel (swapAt A i (heapifyLargest A i))
                  (heapifyLargest A i)).arr.getD (right i) ⊥ = A.arr.getD (right i) ⊥ := by
                rw [frame (right i) (by rw [hcase]; exact not_desc_left_right i), hother' (right i)
                  (Ne.symm (Nat.ne_of_lt (lt_right i))) (by rw [hcase]; exact Ne.symm (left_ne_right i))]
              rw [hfr]
              exact heapifyLargest_ge_right A i hg
            · have := hAL; rw [hcase] at this ⊢
              exact le_trans this (by rw [← hcase])
        | viaLeft hd' =>
          rcases hlr with hcase | hcase
          · rw [← hcase] at hd'
            exact Sh j (by rw [hs'']; exact hj) hd'
          · -- right child was swapped; the left subtree is untouched
            have huntouched : ∀ m, Desc (left i) m →
                (max_heapify_fuel fuel (swapAt A i (heapifyLargest A i))
                  (heapifyLargest A i)).arr.getD m ⊥ = A.arr.getD m ⊥ := by
              intro m hdm
              have h1 : ¬ Desc (heapifyLargest A i) m := by
                rw [hcase]; exact fun h => Desc.sibling_disjoint hdm h
              have h2 : m ≠ i := by have := hdm.le; have := lt_left i; omega
              have h3 : m ≠ heapifyLargest A i := by
                intro h; rw [h, hcase] at hdm; exact not_desc_left_right i hdm
              rw [frame m h1, hother' m h2 h3]
            have : SubHeap (max_heapify_fuel fuel (swapAt A i (heapifyLargest A i))
                (heapifyLargest A i)) (left i) := by
              refine SubHeap.congr (by rw [hs'']) (fun m hdm => (huntouched m hdm).symm) hl
            exact this j (by rw [hs'']; exact hj) hd'
        | viaRight hd' =>
          rcases hlr with hcase | hcase
          · have huntouched : ∀ m, Desc (right i) m →
                (max_heapify_fuel fuel (swapAt A i (heapifyLargest A i))
                  (heapifyLargest A i)).arr.getD m ⊥ = A.arr.getD m ⊥ := by
              intro m hdm
              have h1 : ¬ Desc (heapifyLargest A i) m := by
                rw [hcase]; exact fun h => Desc.sibling_disjoint h hdm
              have h2 : m ≠ i := by have := hdm.le; have := lt_right i; omega
              have h3 : m ≠ heapifyLargest A i := by
                intro h; rw [h, hcase] at hdm; exact not_desc_right_left i hdm
              rw [frame m h1, hother' m h2 h3]
            have : SubHeap (max_heapify_fuel fuel (swapAt A i (heapifyLargest A i))
                (heapifyLargest A i)) (right i) := by
              refine SubHeap.congr (by rw [hs'']) (fun m hdm => (huntouched m hdm).symm) hr
            exact this j (by rw [hs'']; exact hj) hd'
          · rw [← hcase] at hd'
            exact Sh j (by rw [hs'']; exact hj) hd'
      · -- frame: nothing outside the subtree of `i` changes
        intro j hnd
        have hne1 : j ≠ i := fun h => hnd (h ▸ Desc.refl i)
        have hne2 : j ≠ heapifyLargest A i := fun h => hnd (h ▸ hDiL)
        have hndL : ¬ Desc (heapifyLargest A i) j := fun h => hnd (hDiL.trans h)
        rw [frame j hndL, hother' j hne1 hne2]

@[simp] theorem max_heapify_heap_size (A : HeapCapable) (i : Nat) :
    (max_heapify A i).heap_size = A.heap_size := mhf_heap_size _ _ _

@[simp] theorem max_heapify_length (A : HeapCapable) (i : Nat) :
    (max_heapify A i).arr.length = A.arr.length := mhf_length _ _ _

/-- When `largest` stays at `i`, `max_heapify` does nothing. -/
theorem max_heapify_eq_self {A : HeapCapable} {i : Nat}
    (h : heapifyLargest A i = i) : max_heapify A i = A := by
  unfold max_heapify
  cases hf : A.heap_size.toNat with
  | zero => rfl
  | succ fuel => simp only [max_heapify_fuel, h, if_pos]

/-- Packaged form of `mhf_main` for the wrapper `max_heapify`. -/
theorem max_heapify_main (A : HeapCapable) (i : Nat)
    (hWF : WF A) (hi : (i : ℤ) < A.heap_size)
    (hl : SubHeap A (left i)) (hr : SubHeap A (right i)) :
    SubHeap (max_heapify A i) i
    ∧ (∀ j, ¬ Desc i j → (max_heapify A i).arr.getD j ⊥ = A.arr.getD j ⊥)
    ∧ (max_heapify A i).arr.getD i ⊥ = A.arr.getD (heapifyLargest A i) ⊥ :=
  mhf_main A.heap_size.toNat A i hWF hi (by omega) hl hr

/-- Nodes at or beyond the last internal node are roots of (trivial) heaps. -/
theorem SubHeap_of_leaf {A : HeapCapable} {k : Nat}
    (hk : A.heap_size.toNat ≤ left k) : SubHeap A k := by
  intro j hj hd
  have hkj : k ≤ j := hd.le
  have h1 : left k ≤ left j := by unfold left; omega
  have h2 : left j < right j := by unfold left right; omega
  constructor
  · intro hg; exfalso; omega
  · intro hg; exfalso; omega

/-- Invariant of the `build_max_heap` loop: if every node with index `≥ n`
already roots a subheap, running the loop down from `n-1` makes every node
root a subheap. -/
theorem build_loop_correct : ∀ (n : Nat) (A : HeapCapable), WF A →
    n ≤ A.heap_size.toNat / 2 →
    (∀ k, n ≤ k → SubHeap A k) →
    (∀ k, SubHeap (build_loop A n) k)
    ∧ (build_loop A n).heap_size = A.heap_size
    ∧ (build_loop A n).arr.length = A.arr.length := by
  intro n
  induction n with
  | zero =>
    intro A _ _ hinv
    exact ⟨fun k => hinv k (Nat.zero_le k), rfl, rfl⟩
  | succ n ih =>
    intro A hWF hn hinv
    have hsnn := hWF.1
    have hin : (n : ℤ) < A.heap_size := by
      have h1 : n < A.heap_size.toNat / 2 := hn
      have h2 : A.heap_size.toNat / 2 ≤ A.heap_size.toNat := Nat.div_le_self _ _
      omega
    obtain ⟨hSub, hFrame, -⟩ := max_heapify_main A n hWF hin
      (hinv (left n) (by unfold left; omega))
      (hinv (right n) (by unfold right; omega))
    have hWFB : WF (max_heapify A n) := by
      unfold WF; rw [max_heapify_heap_size, max_heapify_length]; exact hWF
    have hinvB : ∀ k, n ≤ k → SubHeap (max_heapify A n) k := by
      intro k hk
      rcases Nat.eq_or_lt_of_le hk with rfl | hklt
      · exact hSub
      · by_cases hd : Desc n k
        · exact hSub.mono hd
        · refine SubHeap.congr (Eq.symm (max_heapify_heap_size A n)) ?_ (hinv k (by omega))
          intro j hdj
          refine (hFrame j ?_).symm
          intro hnj
          rcases hnj.comparable hdj with h | h
          · exact hd h
          · have := h.le; omega
    have hnB : n ≤ (max_heapify A n).heap_size.toNat / 2 := by
      rw [max_heapify_heap_size]; omega
    obtain ⟨h1, h2, h3⟩ := ih (max_heapify A n) hWFB hnB hinvB
    refine ⟨h1, ?_, ?_⟩
    · rw [show build_loop A (n+1) = build_loop (max_heapify A n) n from rfl, h2,
        max_heapify_heap_size]
    · rw [show build_loop A (n+1) = build_loop (max_heapify A n) n from rfl, h3,
        max_heapify_length]

/-- Main correctness of `build_max_heap`: starting from any well-formed state
it establishes the max-heap property, preserving `heap_size` and length. -/
theorem build_max_heap_correct (A : HeapCapable) (hWF : WF A) :
    MaxHeapProp (build_max_heap A)
    ∧ (build_max_heap A).heap_size = A.heap_size
    ∧ (build_max_heap A).arr.length = A.arr.length := by
  obtain ⟨h1, h2, h3⟩ := build_loop_correct (A.heap_size.toNat / 2) A hWF (le_refl _)
    (fun k hk => SubHeap_of_leaf (by unfold left; omega))
  exact ⟨(MaxHeapProp_iff_SubHeap_zero _).mpr (h1 0), h2, h3⟩

/-- The loop of `build_max_heap` is exactly a fold of `max_heapify` over the
indices `n-1, …, 1, 0` taken in decreasing order. -/
theorem build_loop_eq_foldl : ∀ (n : Nat) (A : HeapCapable),
    build_loop A n = ((List.range n).reverse).foldl max_heapify A := by
  intro n
  induction n with
  | zero => intro A; rfl
  | succ n ih =>
    intro A
    rw [List.range_succ, List.reverse_append, List.reverse_singleton]
    exact ih (max_heapify A n)

theorem mkHeap_WF (l : List EV) : WF (mkHeap l) := by
  unfold WF mkHeap; constructor <;> simp

/-- Reading slot `0` of a physically non-empty list never raises. -/
theorem maximum_eq (A : HeapCapable) (hlen : 0 < A.arr.length) :
    maximum A = some (A.arr.getD 0 ⊥) := by
  simp only [maximum, pyGet]
  rw [if_pos (le_refl (0:ℤ)), if_pos ⟨le_refl (0:ℤ), by omega⟩]
  rfl

/-- On a well-formed heap with at least one live element, `extract_max`
returns `A[0]`, after writing `A[heap_size-1]` into slot `0`, decrementing
`heap_size` and sifting down from the root. -/
theorem extract_max_eq (A : HeapCapable) (hWF : WF A) (h1 : 1 ≤ A.heap_size) :
    extract_max A = some (A.arr.getD 0 ⊥,
      max_heapify ⟨A.arr.set 0 (A.arr.getD (A.heap_size - 1).toNat ⊥), A.heap_size - 1⟩ 0) := by
  have hlen : (0:ℤ) < (A.arr.length : ℤ) := by have := hWF.2; omega
  have hpg0 : pyGet A.arr 0 = some (A.arr.getD 0 ⊥) := by
    simp only [pyGet]
    rw [if_pos (le_refl (0:ℤ)), if_pos ⟨le_refl (0:ℤ), hlen⟩]
    rfl
  have hpg1 : pyGet A.arr (A.heap_size - 1) = some (A.arr.getD (A.heap_size - 1).toNat ⊥) := by
    simp only [pyGet]
    rw [if_pos (by omega : (0:ℤ) ≤ A.heap_size - 1),
      if_pos ⟨by omega, by have := hWF.2; omega⟩]
  have hps : pySet A.arr 0 (A.arr.getD (A.heap_size - 1).toNat ⊥) =
      some (A.arr.set 0 (A.arr.getD (A.heap_size - 1).toNat ⊥)) := by
    simp only [pySet]
    rw [if_pos (le_refl (0:ℤ)), if_pos ⟨le_refl (0:ℤ), hlen⟩]
    rfl
  simp only [extract_max, hpg0, hpg1, hps, Option.bind_eq_bind, Option.some_bind]

/-- In a max-heap, the root value dominates every live slot. -/
theorem root_dominates {A : HeapCapable} (h : MaxHeapProp A) :
    ∀ j : Nat, (j : ℤ) < A.heap_size → A.arr.getD j ⊥ ≤ A.arr.getD 0 ⊥ :=
  fun j hj =>
    ((MaxHeapProp_iff_SubHeap_zero A).mp h).dominates j (Desc.zero j) (by omega)

/-- Definition transcribed from the specification text of `increase-key`
(sift-up), for comparison against the source loop: while `i > 0` and
`A[parent(i)] < A[i]`, swap `A[i]` with `A[parent(i)]` and set
`i = parent(i)`.  Fuelled exactly like `sift_loop`. -/
def sift_up_spec : Nat → List EV → Nat → List EV
  | 0, arr, _ => arr
  | fuel+1, arr, index =>
    if index > 0 ∧ arr.getD (parent index) ⊥ < arr.getD index ⊥ then
      sift_up_spec fuel
        ((arr.set index (arr.getD (parent index) ⊥)).set (parent index) (arr.getD index ⊥))
        (parent index)
    else arr

/-- The sift-up algorithm as specified: set `A[i] = newValue`, then bubble it
up by parent comparisons. -/
def increase_key_spec (A : HeapCapable) (index : Nat) (newValue : EV) : HeapCapable :=
  ⟨sift_up_spec index (A.arr.set index newValue) index, A.heap_size⟩

end PQ

namespace PQ

/-- C1.  The claim states that every reachable state satisfies the max-heap
property.  Counterexample: build from `[5,3]` (a valid two-element max-heap),
then call `increase_key` at the live index `1` with the larger value `4`
(both side conditions of the claim hold).  The buggy loop guard
`A[parent(index) < A[index]]` evaluates `A[1] = 3 ≠ 0` and swaps, so `4`
rises above `5` and the result `[4,5]` violates `A[0] ≥ A[1]`. -/
theorem C1_heap_property_cex :
    MaxHeapProp (MaxPriorityQueue [iv 5, iv 3])
    ∧ MaxPriorityQueue [iv 5, iv 3] = ⟨[iv 5, iv 3], 2⟩
    ∧ (1 : ℤ) < (MaxPriorityQueue [iv 5, iv 3]).heap_size
    ∧ (MaxPriorityQueue [iv 5, iv 3]).arr.getD 1 ⊥ ≤ iv 4
    ∧ increase_key (MaxPriorityQueue [iv 5, iv 3]) 1 (iv 4) = ⟨[iv 4, iv 5], 2⟩
    ∧ ¬ MaxHeapProp (increase_key (MaxPriorityQueue [iv 5, iv 3]) 1 (iv 4)) := by
  decide

/-- C2.  The claim states that `increase_key` performs the specified sift-up.
Counterexample on the max-heap `[5,3]` with `index = 1`, `newValue = 4`: the
specified sift-up stops immediately (parent `5` is not smaller than `4`) and
yields `[5,4]`, but the source loop — whose guard indexes `A` by a boolean —
swaps and yields `[4,5]`, moving the element above a parent of greater
value. -/
theorem C2_sift_up_cex :
    MaxHeapProp ⟨[iv 5, iv 3], 2⟩
    ∧ (1 : ℤ) < (⟨[iv 5, iv 3], 2⟩ : HeapCapable).heap_size
    ∧ (⟨[iv 5, iv 3], 2⟩ : HeapCapable).arr.getD 1 ⊥ ≤ iv 4
    ∧ increase_key ⟨[iv 5, iv 3], 2⟩ 1 (iv 4) = ⟨[iv 4, iv 5], 2⟩
    ∧ increase_key_spec ⟨[iv 5, iv 3], 2⟩ 1 (iv 4) = ⟨[iv 5, iv 4], 2⟩
    ∧ increase_key ⟨[iv 5, iv 3], 2⟩ 1 (iv 4) ≠
        increase_key_spec ⟨[iv 5, iv 3], 2⟩ 1 (iv 4) := by
  decide

/-- C3.  The claim states that `maximum` and `extract_max` on a zero-size
heap fail with `EmptyQueue` and perform no mutation.  In the code there is no
`EmptyQueue` at all: the state `⟨[5], 0⟩` is reachable (extract once from the
one-element heap `⟨[5], 1⟩`); on it `maximum` returns `5` normally, and
`extract_max` returns `5` again while mutating `heap_size` to `-1` (the
`error` call only logs, then `A[heap_size-1]` reads `A[-1]`, Python's last
element). -/
theorem C3_empty_queue_cex :
    extract_max ⟨[iv 5], 1⟩ = some (iv 5, ⟨[iv 5], 0⟩)
    ∧ maximum ⟨[iv 5], 0⟩ = some (iv 5)
    ∧ extract_max ⟨[iv 5], 0⟩ = some (iv 5, ⟨[iv 5], -1⟩) := by
  decide

/-- C4.  The claim states that `increase_key` with a smaller new value fails
with an `InvalidKeyUpdate` error.  The code defines no such error: on the
heap `⟨[5], 1⟩` with live index `0` and `newValue = 3 < 5` it logs, returns
normally (the function is total, no exception escapes), and leaves the state
unchanged. -/
theorem C4_invalid_key_cex :
    (0 : ℤ) < (⟨[iv 5], 1⟩ : HeapCapable).heap_size
    ∧ iv 3 < (⟨[iv 5], 1⟩ : HeapCapable).arr.getD 0 ⊥
    ∧ increase_key ⟨[iv 5], 1⟩ 0 (iv 3) = ⟨[iv 5], 1⟩ := by
  decide

/-- C5.  `max_heapify` at a live index whose child subtrees are max-heaps
restores the max-heap property on the subtree rooted at `i`; it swaps only
when a child is strictly greater (`heapifyLargest A i ≠ i` forces a strictly
larger value), ties prefer the current node (no-op when no child is strictly
greater) and then the left child (the right child is chosen only when
strictly greater than the left candidate); the value swapped into slot `i`
is the one at `heapifyLargest A i`. -/
theorem C5_max_heapify_correct (A : HeapCapable) (i : Nat)
    (hWF : WF A) (hi : (i : ℤ) < A.heap_size)
    (hl : SubHeap A (left i)) (hr : SubHeap A (right i)) :
    SubHeap (max_heapify A i) i
    ∧ (heapifyLargest A i ≠ i →
        A.arr.getD i ⊥ < A.arr.getD (heapifyLargest A i) ⊥)
    ∧ (max_heapify A i).arr.getD i ⊥ = A.arr.getD (heapifyLargest A i) ⊥
    ∧ (((left i : ℤ) < A.heap_size → ¬ A.arr.getD i ⊥ < A.arr.getD (left i) ⊥) →
       ((right i : ℤ) < A.heap_size → ¬ A.arr.getD i ⊥ < A.arr.getD (right i) ⊥) →
       max_heapify A i = A)
    ∧ ((left i : ℤ) < A.heap_size → A.arr.getD i ⊥ < A.arr.getD (left i) ⊥ →
       ((right i : ℤ) < A.heap_size → ¬ A.arr.getD (left i) ⊥ < A.arr.getD (right i) ⊥) →
       heapifyLargest A i = left i) := by
  obtain ⟨h1, -, h3⟩ := max_heapify_main A i hWF hi hl hr
  refine ⟨h1, ?_, h3, ?_, ?_⟩
  · intro hne
    exact ((heapifyLargest_cases A i).resolve_left hne).2.2.2
  · intro hcl hcr
    exact max_heapify_eq_self (heapifyLargest_eq_self A i hcl hcr)
  · intro hg hv hrr
    exact heapifyLargest_eq_left A i hg hv hrr

/-- Witness for C5: CLRS exercise 6.2-1, node `2` of the fourteen-element
array used in the module's own tests. -/
theorem C5_max_heapify_correct_witness :
    (WF (mkHeap ([27,17,3,16,13,10,1,5,7,12,4,8,9,0].map iv))
      ∧ (2 : ℤ) < (mkHeap ([27,17,3,16,13,10,1,5,7,12,4,8,9,0].map iv)).heap_size
      ∧ SubHeap (mkHeap ([27,17,3,16,13,10,1,5,7,12,4,8,9,0].map iv)) (left 2)
      ∧ SubHeap (mkHeap ([27,17,3,16,13,10,1,5,7,12,4,8,9,0].map iv)) (right 2))
    ∧ SubHeap (max_heapify (mkHeap ([27,17,3,16,13,10,1,5,7,12,4,8,9,0].map iv)) 2) 2 :=
  ⟨⟨by decide, by decide, by decide, by decide⟩,
    (C5_max_heapify_correct (mkHeap ([27,17,3,16,13,10,1,5,7,12,4,8,9,0].map iv)) 2
      (by decide) (by decide) (by decide) (by decide)).1⟩

/-- C6.  On a well-formed max-heap with at least one live element,
`extract_max` saves `A[0]`, moves `A[heap_size-1]` into slot `0`, decrements
`heap_size`, sifts down from the root, and returns the saved value, which
dominates every live slot; draining the heap built from
`[10,8,4,2,34,45,12,9,2,1,4,0]` yields `45` then `34` and in total the
non-increasing sequence `[45,34,12,10,9,8,4,4,2,2,1,0]`, a permutation of
the input. -/
theorem C6_extract_max_correct (A : HeapCapable)
    (hWF : WF A) (hmh : MaxHeapProp A) (h1 : 1 ≤ A.heap_size) :
    extract_max A = some (A.arr.getD 0 ⊥,
      max_heapify ⟨A.arr.set 0 (A.arr.getD (A.heap_size - 1).toNat ⊥), A.heap_size - 1⟩ 0)
    ∧ (∀ j : Nat, (j : ℤ) < A.heap_size → A.arr.getD j ⊥ ≤ A.arr.getD 0 ⊥)
    ∧ extractAllList (MaxPriorityQueue ([10,8,4,2,34,45,12,9,2,1,4,0].map iv)) =
        [45,34,12,10,9,8,4,4,2,2,1,0].map iv
    ∧ List.Pairwise (· ≥ ·) ([45,34,12,10,9,8,4,4,2,2,1,0].map iv)
    ∧ ([45,34,12,10,9,8,4,4,2,2,1,0].map iv).Perm
        ([10,8,4,2,34,45,12,9,2,1,4,0].map iv) :=
  ⟨extract_max_eq A hWF h1, root_dominates hmh, by decide, by decide, by decide⟩

/-- Witness for C6: the three-element max-heap `[7,4,5]`. -/
theorem C6_extract_max_correct_witness :
    (WF (⟨[iv 7, iv 4, iv 5], 3⟩ : HeapCapable)
      ∧ MaxHeapProp (⟨[iv 7, iv 4, iv 5], 3⟩ : HeapCapable)
      ∧ (1 : ℤ) ≤ (⟨[iv 7, iv 4, iv 5], 3⟩ : HeapCapable).heap_size)
    ∧ extract_max ⟨[iv 7, iv 4, iv 5], 3⟩ = some ((⟨[iv 7, iv 4, iv 5], 3⟩ : HeapCapable).arr.getD 0 ⊥,
        max_heapify ⟨(⟨[iv 7, iv 4, iv 5], 3⟩ : HeapCapable).arr.set 0
          ((⟨[iv 7, iv 4, iv 5], 3⟩ : HeapCapable).arr.getD ((3:ℤ) - 1).toNat ⊥), (3:ℤ) - 1⟩ 0) :=
  ⟨⟨by decide, by decide, by decide⟩,
    (C6_extract_max_correct ⟨[iv 7, iv 4, iv 5], 3⟩ (by decide) (by decide) (by decide)).1⟩

/-- C7.  `build_max_heap` establishes the max-heap property on every
well-formed state; it is exactly the fold of sift-down over the indices
`heap_size/2 - 1, …, 1, 0` in decreasing order; building from `[]` gives
size `0` and building from `[x]` gives size `1` with the array unchanged
(zero loop iterations in both cases). -/
theorem C7_build_correct :
    (∀ A : HeapCapable, WF A → MaxHeapProp (build_max_heap A))
    ∧ (∀ A : HeapCapable, build_max_heap A =
        ((List.range (A.heap_size.toNat / 2)).reverse).foldl max_heapify A)
    ∧ MaxPriorityQueue [] = ⟨[], 0⟩
    ∧ (∀ x : EV, MaxPriorityQueue [x] = ⟨[x], 1⟩) := by
  refine ⟨fun A hWF => (build_max_heap_correct A hWF).1,
    fun A => build_loop_eq_foldl _ A, by decide, ?_⟩
  intro x
  show build_loop (mkHeap [x]) ((mkHeap [x]).heap_size.toNat / 2) = ⟨[x], 1⟩
  show build_loop ⟨[x], ((1:Nat) : ℤ)⟩ ((((1:Nat) : ℤ)).toNat / 2) = ⟨[x], 1⟩
  norm_num [build_loop]

/-- Witness for C7: building from `[5,4,7,1,3]` (the module's own
`test_initialize` data) yields a max-heap. -/
theorem C7_build_correct_witness :
    WF (mkHeap ([5,4,7,1,3].map iv))
    ∧ MaxHeapProp (build_max_heap (mkHeap ([5,4,7,1,3].map iv))) :=
  ⟨by decide, C7_build_correct.1 (mkHeap ([5,4,7,1,3].map iv)) (by decide)⟩

/-- C8.  The claim states that `insert` grows `size` by one (true) and that
the inserted value is retrievable at its correct rank (false).  On the
max-heap `[5,3]`, inserting `4` produces `[4,3,5]`: the buggy sift-up lifts
`4` to the root, and the very next `extract_max` returns `4` even though the
strictly larger live element `5` has not been extracted. -/
theorem C8_insert_cex :
    MaxHeapProp ⟨[iv 5, iv 3], 2⟩
    ∧ (heap_insert ⟨[iv 5, iv 3], 2⟩ (iv 4)).heap_size =
        (⟨[iv 5, iv 3], 2⟩ : HeapCapable).heap_size + 1
    ∧ heap_insert ⟨[iv 5, iv 3], 2⟩ (iv 4) = ⟨[iv 4, iv 3, iv 5], 3⟩
    ∧ extract_max (heap_insert ⟨[iv 5, iv 3], 2⟩ (iv 4)) =
        some (iv 4, ⟨[iv 5, iv 3, iv 5], 2⟩)
    ∧ iv 4 < iv 5
    ∧ iv 5 ∈ (heap_insert ⟨[iv 5, iv 3], 2⟩ (iv 4)).arr.take
        (heap_insert ⟨[iv 5, iv 3], 2⟩ (iv 4)).heap_size.toNat := by
  decide

/-- C9.  Sift-down on a state whose physical storage exceeds `heap_size`
touches no slot at an index `≥ heap_size`: the length is preserved and every
trailing slot is unchanged (in particular slots beyond `heap_size` but
within the physical length). -/
theorem C9_sift_down_frame (A : HeapCapable) (i : Nat)
    (hlen : A.heap_size < (A.arr.length : ℤ)) (hi : (i : ℤ) < A.heap_size) :
    (max_heapify A i).arr.length = A.arr.length
    ∧ ∀ j : Nat, A.heap_size ≤ (j : ℤ) → (max_heapify A i).arr[j]? = A.arr[j]? :=
  ⟨max_heapify_length A i, fun j hj => mhf_getElem?_high A.heap_size.toNat A i j hj⟩

/-- Witness for C9: the module's own reduced-heap-size test, a ten-element
array with `heap_size = 7`; the three trailing slots stay `[8, 5, 4]`. -/
theorem C9_sift_down_frame_witness :
    ((⟨[3,10,7,9,7,5,2,8,5,4].map iv, 7⟩ : HeapCapable).heap_size <
        ((⟨[3,10,7,9,7,5,2,8,5,4].map iv, 7⟩ : HeapCapable).arr.length : ℤ)
      ∧ (0 : ℤ) < (⟨[3,10,7,9,7,5,2,8,5,4].map iv, 7⟩ : HeapCapable).heap_size)
    ∧ ∀ j : Nat, (7 : ℤ) ≤ (j : ℤ) →
        (max_heapify ⟨[3,10,7,9,7,5,2,8,5,4].map iv, 7⟩ 0).arr[j]? =
          ((⟨[3,10,7,9,7,5,2,8,5,4].map iv, 7⟩ : HeapCapable)).arr[j]? :=
  ⟨⟨by decide, by decide⟩,
    (C9_sift_down_frame ⟨[3,10,7,9,7,5,2,8,5,4].map iv, 7⟩ 0 (by decide) (by decide)).2⟩

/-- C10.  When the requested new value is strictly smaller than the current
one at a live index, `increase_key` returns normally (it is a total function
into `HeapCapable`, with no error channel) and the state — backing array and
`heap_size` — is exactly the input: the rejection is a silent no-op, visible
to the caller only through the log. -/
theorem C10_increase_key_silent_noop (A : HeapCapable) (index : Nat) (newValue : EV)
    (hlive : (index : ℤ) < A.heap_size)
    (hv : newValue < A.arr.getD index ⊥) :
    increase_key A index newValue = A := by
  unfold increase_key
  rw [if_pos hv]

/-- Witness for C10: rejecting `3` at the root of the one-element heap
`[5]`. -/
theorem C10_increase_key_silent_noop_witness :
    ((0 : ℤ) < (⟨[iv 5], 1⟩ : HeapCapable).heap_size
      ∧ iv 3 < (⟨[iv 5], 1⟩ : HeapCapable).arr.getD 0 ⊥)
    ∧ increase_key ⟨[iv 5], 1⟩ 0 (iv 3) = ⟨[iv 5], 1⟩ :=
  ⟨⟨by decide, by decide⟩,
    C10_increase_key_silent_noop ⟨[iv 5], 1⟩ 0 (iv 3) (by decide) (by decide)⟩

end PQ
